import Mathlib

/-!
Verification of the TP-1-ED-C championship-table program.

C strings are modelled as lists of byte values (`List Nat`, each element
below 256, with no interior NUL byte for well-formed inputs).  C `int`
values are modelled as `Int`; the source's overflow guard keeps every
accumulated magnitude at most 2147483647, so no wrap-around arithmetic
occurs on the paths modelled here.  Functions that communicate through an
output pointer are modelled by threading the pointed-to value explicitly.
-/

namespace TP1

/-- Byte-level model of C `isdigit` restricted to the ASCII digits, as used
by `safe_atoi` in `utils.c`. -/
def isdigit (c : Nat) : Bool := 48 ≤ c && c ≤ 57

/-- Byte-level model of C `tolower` in the C locale: uppercase ASCII letters
are shifted to lowercase, every other byte passes through unchanged. -/
def tolower (c : Nat) : Nat := if 65 ≤ c && c ≤ 90 then c + 32 else c

/-- Embedding of `str_to_lower` from `utils.c`: lowercases every byte of the
string in place, modelled as a map. -/
def str_to_lower (s : List Nat) : List Nat := s.map tolower

/-- Embedding of `starts_with_case_insensitive_impl` from `utils.c`: walks the
two strings in lockstep, lowercasing both bytes before comparing, and stops
at the first mismatch or when the text ends before the candidate start. -/
def starts_with_case_insensitive_impl : List Nat → List Nat → Bool
  | _, [] => true
  | [], _ :: _ => false
  | t :: ts, q :: qs =>
    if tolower t = tolower q then starts_with_case_insensitive_impl ts qs else false

/-- Embedding of `str_starts_with_case_insensitive` from `utils.c` (the NULL
guards of the C wrapper have no counterpart for list-modelled strings). -/
def str_starts_with_case_insensitive (text pat : List Nat) : Bool :=
  starts_with_case_insensitive_impl text pat

/-- Byte-level model of C `isspace` in the C locale: space and the five
control characters 0x09..0x0D. -/
def isspace (c : Nat) : Bool := c = 32 || (9 ≤ c && c ≤ 13)

/-- Embedding of `str_trim` from `utils.c`: drops leading and trailing
whitespace, keeping the middle of the string intact. -/
def str_trim (s : List Nat) : List Nat :=
  ((s.dropWhile isspace).reverse.dropWhile isspace).reverse

/-- Embedding of the static `chomp` helper shared by `bd_times.c` and
`bd_partidas.c`: removes trailing newline and carriage-return bytes. -/
def chomp (s : List Nat) : List Nat :=
  (s.reverse.dropWhile (fun c => c = 10 || c = 13)).reverse

/-- Embedding of the digit-accumulation loop of `safe_atoi` in `utils.c`.
The accumulator stays a natural number because the C code builds the
magnitude with nonnegative arithmetic; the guard
`val > (2147483647 - d) / 10` is taken verbatim (C truncating division on
nonnegative operands is Nat division).  `none` models the two `return 0`
exits inside the loop (non-digit byte, overflow). -/
def safe_atoi_loop : List Nat → Nat → Option Nat
  | [], val => some val
  | c :: p, val =>
    if isdigit c = false then none
    else
      let d := c - 48
      if val > (2147483647 - d) / 10 then none
      else safe_atoi_loop p (val * 10 + d)

/-- Embedding of `safe_atoi` from `utils.c`.  The C function receives an
output pointer; here the pointed-to value is threaded explicitly: the result
is the pair of the C return value (1 success, 0 failure) and the value of
`*out` after the call.  Each early `return 0` of the C code leaves `out`
untouched. -/
def safe_atoi (s : List Nat) (out : Int) : Int × Int :=
  match s with
  | [] => (0, out)
  | c0 :: rest =>
    let sign : Int := if c0 = 45 then -1 else 1
    let p : List Nat := if c0 = 45 then rest else c0 :: rest
    if isdigit (p.headD 0) = false then (0, out)
    else
      match safe_atoi_loop p 0 with
      | none => (0, out)
      | some val => (1, (val : Int) * sign)

/-- Numeric value denoted by a list of ASCII digit bytes, most significant
first: the accumulator semantics of the `safe_atoi` loop. -/
def digitsVal (l : List Nat) : Nat := l.foldl (fun a c => a * 10 + (c - 48)) 0

/-- Digit body of a `safe_atoi` input: the bytes after an optional leading
minus sign. -/
def atoi_body (s : List Nat) : List Nat := if s.headD 0 = 45 then s.tail else s

example : safe_atoi [49, 50, 51] 7 = (1, 123) := by decide
example : safe_atoi [45, 52, 53, 54] 7 = (1, -456) := by decide
example : safe_atoi [45] 7 = (0, 7) := by decide
example : safe_atoi [49, 97] 7 = (0, 7) := by decide
example : safe_atoi [50, 49, 52, 55, 52, 56, 51, 54, 52, 55] 0 = (1, 2147483647) := by decide
example : safe_atoi [50, 49, 52, 55, 52, 56, 51, 54, 52, 56] 0 = (0, 0) := by decide
example : safe_atoi [45, 50, 49, 52, 55, 52, 56, 51, 54, 52, 56] 0 = (0, 0) := by decide

/-- Embedding of the static `utf8_cp_bytes` helper from `utils.c`: number of
bytes of the UTF-8 code point starting with byte `b`, with invalid leading
bytes treated as single-byte units. -/
def utf8_cp_bytes (b : Nat) : Nat :=
  if b < 0x80 then 1
  else if b &&& 0xE0 = 0xC0 then 2
  else if b &&& 0xF0 = 0xE0 then 3
  else if b &&& 0xF8 = 0xF0 then 4
  else 1

theorem utf8_cp_bytes_pos (b : Nat) : 1 ≤ utf8_cp_bytes b := by
  unfold utf8_cp_bytes
  split <;> [omega; split <;> [omega; split <;> [omega; split <;> omega]]]

/-- Byte-walking loop of `utf8_len` from `utils.c`: the pointer advance
`p += n` is modelled by a skip counter holding the `n - 1` continuation
bytes still to be stepped over, so the recursion is structural on the
byte list. -/
def utf8_len_go : List Nat → Nat → Nat
  | [], _ => 0
  | b :: rest, 0 => utf8_len_go rest (utf8_cp_bytes b - 1) + 1
  | _ :: rest, skip + 1 => utf8_len_go rest skip

/-- Embedding of `utf8_len` from `utils.c`: counts code points by classifying
each leading byte and skipping that many bytes. -/
def utf8_len (s : List Nat) : Nat := utf8_len_go s 0

theorem utf8_len_go_drop (l : List Nat) : ∀ k, utf8_len_go l k = utf8_len (l.drop k) := by
  induction l with
  | nil => intro k; cases k <;> rfl
  | cons b rest ih =>
    intro k
    cases k with
    | zero => rfl
    | succ k => simpa [utf8_len_go] using ih k

/-- One step of the `utf8_len` byte walk: a leading byte contributes one code
point and the walk resumes after its continuation bytes. -/
theorem utf8_len_cons (b : Nat) (rest : List Nat) :
    utf8_len (b :: rest) = utf8_len (rest.drop (utf8_cp_bytes b - 1)) + 1 := by
  show utf8_len_go (b :: rest) 0 = _
  simp [utf8_len_go, utf8_len_go_drop]

/-- Fuel-indexed decomposition of a byte string into the code-point units the
`utils.c` helpers walk over; with fuel at least the list length it splits the
string after each leading byte's continuation bytes. -/
def utf8_chunks_go : Nat → List Nat → List (List Nat)
  | _, [] => []
  | 0, _ :: _ => []
  | fuel + 1, b :: rest =>
    (b :: rest.take (utf8_cp_bytes b - 1)) :: utf8_chunks_go fuel (rest.drop (utf8_cp_bytes b - 1))

/-- Decomposition of a byte string into its code-point units: the proof-side
view of the recursion shared by `utf8_len` and `utf8_copy_n_cps`. -/
def utf8_chunks (s : List Nat) : List (List Nat) := utf8_chunks_go s.length s

theorem utf8_chunks_go_congr :
    ∀ (fuel fuel' : Nat) (l : List Nat), l.length ≤ fuel → l.length ≤ fuel' →
      utf8_chunks_go fuel l = utf8_chunks_go fuel' l := by
  intro fuel
  induction fuel with
  | zero =>
    intro fuel' l hl _
    have : l = [] := List.eq_nil_of_length_eq_zero (Nat.le_zero.mp hl)
    subst this; cases fuel' <;> rfl
  | succ fuel ih =>
    intro fuel' l hl hl'
    cases l with
    | nil => cases fuel' <;> rfl
    | cons b rest =>
      cases fuel' with
      | zero => simp at hl'
      | succ fuel' =>
        simp only [utf8_chunks_go]
        refine congrArg _ (ih fuel' _ ?_ ?_) <;>
          simp only [List.length_cons] at hl hl' <;>
          calc (rest.drop (utf8_cp_bytes b - 1)).length ≤ rest.length := by
                simp [List.length_drop]
            _ ≤ _ := by omega

/-- One step of the code-point decomposition. -/
theorem utf8_chunks_cons (b : Nat) (rest : List Nat) :
    utf8_chunks (b :: rest) =
      (b :: rest.take (utf8_cp_bytes b - 1)) :: utf8_chunks (rest.drop (utf8_cp_bytes b - 1)) := by
  show utf8_chunks_go (b :: rest).length (b :: rest) = _
  simp only [List.length_cons, utf8_chunks_go]
  refine congrArg _ (utf8_chunks_go_congr _ _ _ ?_ ?_) <;> simp [utf8_chunks, List.length_drop]

/-- Well-formedness of a modelled C string holding UTF-8 text: every
code-point unit is complete (its leading byte's declared length is exactly
the number of bytes present) and no byte is NUL. -/
def utf8_wf (s : List Nat) : Bool :=
  (utf8_chunks s).all (fun c => (utf8_cp_bytes (c.headD 0) == c.length) && c.all (fun b => b != 0))

/-- Embedding of the copy loop of `utf8_copy_n_cps` from `utils.c`: copies
whole code points while fewer than `w` have been copied and the next unit
still fits strictly below the buffer capacity; returns the bytes written.
The pointer advance `p += n` is modelled with fuel (at least the list length)
so the recursion is structural. -/
def utf8_copy_go (cap w : Nat) : Nat → List Nat → Nat → Nat → List Nat
  | _, [], _, _ => []
  | 0, _ :: _, _, _ => []
  | fuel + 1, b :: rest, bytes, cps =>
    if cps < w then
      let n := utf8_cp_bytes b
      if bytes + n ≥ cap then []
      else (b :: rest.take (n - 1)) ++ utf8_copy_go cap w fuel (rest.drop (n - 1)) (bytes + n) (cps + 1)
    else []

/-- Embedding of `utf8_copy_n_cps` from `utils.c`, returning the byte
sequence written into the destination buffer (the buffer is always
NUL-terminated by the source, so the written bytes are what `fputs` later
prints). -/
def utf8_copy_n_cps (cap : Nat) (s : List Nat) (w : Nat) : List Nat :=
  utf8_copy_go cap w s.length s 0 0

theorem utf8_copy_go_congr (cap w : Nat) :
    ∀ (fuel fuel' : Nat) (l : List Nat) (bytes cps : Nat), l.length ≤ fuel → l.length ≤ fuel' →
      utf8_copy_go cap w fuel l bytes cps = utf8_copy_go cap w fuel' l bytes cps := by
  intro fuel
  induction fuel with
  | zero =>
    intro fuel' l bytes cps hl _
    have : l = [] := List.eq_nil_of_length_eq_zero (Nat.le_zero.mp hl)
    subst this; cases fuel' <;> rfl
  | succ fuel ih =>
    intro fuel' l bytes cps hl hl'
    cases l with
    | nil => cases fuel' <;> rfl
    | cons b rest =>
      cases fuel' with
      | zero => simp at hl'
      | succ fuel' =>
        simp only [utf8_copy_go]
        have hd : (rest.drop (utf8_cp_bytes b - 1)).length ≤ rest.length := by
          simp [List.length_drop]
        simp only [List.length_cons] at hl hl'
        rw [ih fuel' _ _ _ (by omega) (by omega)]

/-- One step of the copy loop. -/
theorem utf8_copy_go_cons (cap w : Nat) (b : Nat) (rest : List Nat) (bytes cps : Nat) :
    utf8_copy_go cap w (b :: rest).length (b :: rest) bytes cps =
      if cps < w then
        if bytes + utf8_cp_bytes b ≥ cap then []
        else (b :: rest.take (utf8_cp_bytes b - 1)) ++
          utf8_copy_go cap w (rest.drop (utf8_cp_bytes b - 1)).length
            (rest.drop (utf8_cp_bytes b - 1)) (bytes + utf8_cp_bytes b) (cps + 1)
      else [] := by
  simp only [List.length_cons, utf8_copy_go]
  have hd : (rest.drop (utf8_cp_bytes b - 1)).length ≤ rest.length := by
    simp [List.length_drop]
  rw [utf8_copy_go_congr cap w rest.length (rest.drop (utf8_cp_bytes b - 1)).length
        (rest.drop (utf8_cp_bytes b - 1)) (bytes + utf8_cp_bytes b) (cps + 1) hd (Nat.le_refl _)]

/-- Embedding of `print_utf8_padded` from `utils.c`, returning the bytes
sent to the output stream.  The ellipsis U+2026 is the byte triple
0xE2 0x80 0xA6. -/
def print_utf8_padded (s : List Nat) (width : Int) : List Nat :=
  let vis : Int := (utf8_len s : Int)
  if vis = width then s
  else if vis < width then s ++ List.replicate (width - vis).toNat 32
  else
    let keep : Int := if width - 1 < 0 then 0 else width - 1
    utf8_copy_n_cps 256 s keep.toNat ++ [0xE2, 0x80, 0xA6]

/-- Byte length of the first `k` code-point units of `s`; measures how much
of the internal 256-byte buffer a truncation to `k` code points needs. -/
def utf8_take_bytes (s : List Nat) (k : Nat) : Nat :=
  (((utf8_chunks s).take k).flatten).length

/-- Completeness of a single code-point unit: its leading byte's declared
length is the number of bytes present. -/
def chunk_ok (c : List Nat) : Prop := utf8_cp_bytes (c.headD 0) = c.length

theorem chunk_ok_ne_nil {c : List Nat} (h : chunk_ok c) : c ≠ [] := by
  intro hc
  subst hc
  have := utf8_cp_bytes_pos 0
  simp [chunk_ok] at h
  omega

theorem utf8_chunks_flatten : ∀ (fuel : Nat) (s : List Nat), s.length ≤ fuel →
    (utf8_chunks s).flatten = s := by
  intro fuel
  induction fuel with
  | zero =>
    intro s hs
    have : s = [] := List.eq_nil_of_length_eq_zero (Nat.le_zero.mp hs)
    subst this; rfl
  | succ fuel ih =>
    intro s hs
    cases s with
    | nil => rfl
    | cons b rest =>
      rw [utf8_chunks_cons]
      simp only [List.flatten_cons]
      have hlen : (rest.drop (utf8_cp_bytes b - 1)).length ≤ fuel := by
        simp only [List.length_cons] at hs
        have : (rest.drop (utf8_cp_bytes b - 1)).length ≤ rest.length := by
          simp [List.length_drop]
        omega
      rw [ih _ hlen]
      simp [List.take_append_drop]

theorem utf8_len_eq_chunks : ∀ (fuel : Nat) (s : List Nat), s.length ≤ fuel →
    utf8_len s = (utf8_chunks s).length := by
  intro fuel
  induction fuel with
  | zero =>
    intro s hs
    have : s = [] := List.eq_nil_of_length_eq_zero (Nat.le_zero.mp hs)
    subst this; rfl
  | succ fuel ih =>
    intro s hs
    cases s with
    | nil => rfl
    | cons b rest =>
      rw [utf8_chunks_cons, utf8_len_cons]
      simp only [List.length_cons]
      have hlen : (rest.drop (utf8_cp_bytes b - 1)).length ≤ fuel := by
        simp only [List.length_cons] at hs
        have : (rest.drop (utf8_cp_bytes b - 1)).length ≤ rest.length := by
          simp [List.length_drop]
        omega
      rw [ih _ hlen]

theorem utf8_chunks_complete_cons (c X : List Nat) (hc : chunk_ok c) :
    utf8_chunks (c ++ X) = c :: utf8_chunks X := by
  cases c with
  | nil => exact absurd rfl (chunk_ok_ne_nil hc)
  | cons b cs =>
    rw [List.cons_append, utf8_chunks_cons]
    have h1 : utf8_cp_bytes b - 1 = cs.length := by
      simp only [chunk_ok, List.headD_cons, List.length_cons] at hc
      omega
    rw [h1]
    congr 1
    · rw [List.take_left]
    · rw [List.drop_left]

theorem utf8_chunks_flatten_append :
    ∀ (pre : List (List Nat)) (X : List Nat), (∀ c ∈ pre, chunk_ok c) →
      utf8_chunks (pre.flatten ++ X) = pre ++ utf8_chunks X := by
  intro pre
  induction pre with
  | nil => intro X _; simp
  | cons c pre ih =>
    intro X h
    rw [List.flatten_cons, List.append_assoc, utf8_chunks_complete_cons _ _ (h c (by simp))]
    rw [ih X (fun d hd => h d (by simp [hd]))]
    rfl

theorem utf8_wf_chunks {s : List Nat} (h : utf8_wf s = true) :
    ∀ c ∈ utf8_chunks s, chunk_ok c := by
  intro c hc
  simp only [utf8_wf, List.all_eq_true] at h
  have := h c hc
  simp only [Bool.and_eq_true, beq_iff_eq] at this
  exact this.1

theorem utf8_chunks_replicate_space (k : Nat) :
    utf8_chunks (List.replicate k 32) = List.replicate k [32] := by
  induction k with
  | zero => rfl
  | succ k ih =>
    rw [List.replicate_succ, utf8_chunks_cons]
    have h32 : utf8_cp_bytes 32 = 1 := by decide
    simp [h32, ih, List.replicate_succ]

theorem utf8_copy_go_spec (cap w : Nat) :
    ∀ (fuel : Nat) (s : List Nat), s.length ≤ fuel →
      (∀ c ∈ utf8_chunks s, chunk_ok c) →
      ∀ (bytes cps : Nat),
        bytes + (((utf8_chunks s).take (w - cps)).flatten).length < cap →
        utf8_copy_go cap w s.length s bytes cps = (((utf8_chunks s).take (w - cps)).flatten) := by
  intro fuel
  induction fuel with
  | zero =>
    intro s hs
    have : s = [] := List.eq_nil_of_length_eq_zero (Nat.le_zero.mp hs)
    subst this
    intro _ bytes cps _
    simp [utf8_copy_go, utf8_chunks, utf8_chunks_go]
  | succ fuel ih =>
    intro s hs hok bytes cps hcap
    cases s with
    | nil => simp [utf8_copy_go, utf8_chunks, utf8_chunks_go]
    | cons b rest =>
      rw [utf8_copy_go_cons]
      rw [utf8_chunks_cons] at hok hcap ⊢
      by_cases hcps : cps < w
      · have hk : w - cps = (w - (cps + 1)) + 1 := by omega
        rw [hk] at hcap ⊢
        simp only [List.take_succ_cons, List.flatten_cons, List.length_append,
          List.length_cons] at hcap ⊢
        have hn : utf8_cp_bytes b = (rest.take (utf8_cp_bytes b - 1)).length + 1 := by
          have := hok (b :: rest.take (utf8_cp_bytes b - 1)) (List.mem_cons_self _ _)
          simpa [chunk_ok] using this
        have hcapn : ¬ (bytes + utf8_cp_bytes b ≥ cap) := by omega
        simp only [hcps, if_true, hcapn, if_false]
        rw [ih (rest.drop (utf8_cp_bytes b - 1))
              (by
                have : (rest.drop (utf8_cp_bytes b - 1)).length ≤ rest.length := by
                  simp [List.length_drop]
                simp only [List.length_cons] at hs
                omega)
              (fun c hc => hok c (List.mem_cons_of_mem _ hc))
              (bytes + utf8_cp_bytes b) (cps + 1)
              (by omega)]
      · simp only [hcps, if_false]
        have hk : w - cps = 0 := by omega
        rw [hk]
        simp

/-- C1 (counterexample): the claim asserts that for every width ≥ 0 the
output of `print_utf8_padded` has code-point length exactly `width`; but for
the one-byte string "a" and width 0 the source takes the truncation path,
keeps `max(width-1,0) = 0` code points and still appends the ellipsis, so the
output is the lone ellipsis of code-point length 1, not 0. -/
theorem print_utf8_padded_width_zero_cex :
    utf8_len (print_utf8_padded [97] 0) ≠ 0 := by decide

/-- C1 (amended): for every well-formed UTF-8 string and every width ≥ 1 such
that, when truncation occurs, the first `width - 1` code points fit in the
255 usable bytes of the internal 256-byte buffer, `print_utf8_padded` emits
exactly `width` code points: input of equal code-point length is emitted
unchanged, shorter input is right-padded with ASCII spaces, and longer input
is truncated to `width - 1` whole code points followed by the ellipsis
U+2026, which counts as one code point. -/
theorem print_utf8_padded_spec (s : List Nat) (width : Int)
    (hwf : utf8_wf s = true) (hw : 1 ≤ width)
    (hbuf : width < (utf8_len s : Int) → utf8_take_bytes s (width - 1).toNat ≤ 255) :
    (utf8_len (print_utf8_padded s width) : Int) = width
  ∧ ((utf8_len s : Int) = width → print_utf8_padded s width = s)
  ∧ ((utf8_len s : Int) < width →
       print_utf8_padded s width = s ++ List.replicate (width - (utf8_len s : Int)).toNat 32)
  ∧ (width < (utf8_len s : Int) →
       print_utf8_padded s width =
         ((utf8_chunks s).take (width - 1).toNat).flatten ++ [0xE2, 0x80, 0xA6]) := by
  have hchunk : ∀ c ∈ utf8_chunks s, chunk_ok c := utf8_wf_chunks hwf
  have hflat : (utf8_chunks s).flatten = s := utf8_chunks_flatten s.length s (Nat.le_refl _)
  have hlen : utf8_len s = (utf8_chunks s).length := utf8_len_eq_chunks s.length s (Nat.le_refl _)
  rcases lt_trichotomy ((utf8_len s : Int)) width with hv | hv | hv
  · -- shorter input: right-padded with spaces
    have hout : print_utf8_padded s width
        = s ++ List.replicate (width - (utf8_len s : Int)).toNat 32 := by
      simp only [print_utf8_padded]
      rw [if_neg (by omega), if_pos (by omega)]
    have happ := utf8_chunks_flatten_append (utf8_chunks s)
      (List.replicate (width - (utf8_len s : Int)).toNat 32) hchunk
    rw [hflat] at happ
    have hlen2 : utf8_len (print_utf8_padded s width)
        = utf8_len s + (width - (utf8_len s : Int)).toNat := by
      rw [hout, utf8_len_eq_chunks (s ++ _).length _ (Nat.le_refl _), happ,
        utf8_chunks_replicate_space]
      simp [hlen]
    refine ⟨?_, by omega, fun _ => hout, by omega⟩
    rw [hlen2]
    push_cast
    omega
  · -- equal length: emitted unchanged
    have hout : print_utf8_padded s width = s := by
      simp only [print_utf8_padded]
      rw [if_pos hv]
    refine ⟨by rw [hout, hv], fun _ => hout, by omega, by omega⟩
  · -- longer input: truncation plus ellipsis
    have hK : (((width - 1).toNat : Int)) = width - 1 := Int.toNat_of_nonneg (by omega)
    have hout : print_utf8_padded s width
        = utf8_copy_n_cps 256 s (width - 1).toNat ++ [0xE2, 0x80, 0xA6] := by
      simp only [print_utf8_padded]
      rw [if_neg (by omega), if_neg (by omega), if_neg (by omega)]
    have hbound : 0 + (((utf8_chunks s).take ((width - 1).toNat - 0)).flatten).length < 256 := by
      have := hbuf hv
      simp only [utf8_take_bytes] at this
      simpa using Nat.lt_succ_of_le this
    have hcopy : utf8_copy_n_cps 256 s (width - 1).toNat
        = ((utf8_chunks s).take (width - 1).toNat).flatten := by
      have := utf8_copy_go_spec 256 (width - 1).toNat s.length s (Nat.le_refl _) hchunk 0 0 hbound
      simpa [utf8_copy_n_cps] using this
    have houtfull : print_utf8_padded s width
        = ((utf8_chunks s).take (width - 1).toNat).flatten ++ [0xE2, 0x80, 0xA6] := by
      rw [hout, hcopy]
    have hpre : ∀ c ∈ (utf8_chunks s).take (width - 1).toNat, chunk_ok c :=
      fun c hc => hchunk c (List.take_subset _ _ hc)
    have happ := utf8_chunks_flatten_append ((utf8_chunks s).take (width - 1).toNat)
      [0xE2, 0x80, 0xA6] hpre
    have hellipsis : utf8_chunks [0xE2, 0x80, 0xA6] = [[0xE2, 0x80, 0xA6]] := by decide
    have htklen : ((utf8_chunks s).take (width - 1).toNat).length = (width - 1).toNat := by
      rw [List.length_take]
      have : (width - 1).toNat < (utf8_chunks s).length := by omega
      omega
    have hlen2 : utf8_len (print_utf8_padded s width) = (width - 1).toNat + 1 := by
      rw [houtfull, utf8_len_eq_chunks (((utf8_chunks s).take (width - 1).toNat).flatten
        ++ [0xE2, 0x80, 0xA6]).length _ (Nat.le_refl _), happ, hellipsis]
      rw [List.length_append, htklen]
      rfl
    refine ⟨?_, by omega, by omega, fun _ => houtfull⟩
    rw [hlen2]
    push_cast
    omega

theorem safe_atoi_cons (c0 : Nat) (rest : List Nat) (out : Int) :
    safe_atoi (c0 :: rest) out =
      (let sign : Int := if c0 = 45 then -1 else 1
       let p : List Nat := if c0 = 45 then rest else c0 :: rest
       if isdigit (p.headD 0) = false then ((0 : Int), out)
       else
         match safe_atoi_loop p 0 with
         | none => ((0 : Int), out)
         | some val => ((1 : Int), (val : Int) * sign)) := rfl

theorem safe_atoi_loop_cons (c : Nat) (l : List Nat) (v : Nat) :
    safe_atoi_loop (c :: l) v =
      if isdigit c = false then none
      else if v > (2147483647 - (c - 48)) / 10 then none
      else safe_atoi_loop l (v * 10 + (c - 48)) := rfl

theorem foldl_digits_ge : ∀ (l : List Nat) (v : Nat),
    v ≤ l.foldl (fun a c => a * 10 + (c - 48)) v := by
  intro l
  induction l with
  | nil => intro v; simp
  | cons c l ih =>
    intro v
    have h1 := ih (v * 10 + (c - 48))
    simp only [List.foldl_cons]
    omega

theorem safe_atoi_loop_ok : ∀ (l : List Nat) (v : Nat),
    (∀ c ∈ l, isdigit c = true) →
    l.foldl (fun a c => a * 10 + (c - 48)) v ≤ 2147483647 →
    safe_atoi_loop l v = some (l.foldl (fun a c => a * 10 + (c - 48)) v) := by
  intro l
  induction l with
  | nil => intro v _ _; rfl
  | cons c l ih =>
    intro v hd hle
    have hdc : isdigit c = true := hd c (List.mem_cons_self _ _)
    have hcd : c - 48 ≤ 9 := by simp [isdigit] at hdc; omega
    simp only [List.foldl_cons] at hle
    have hmono := foldl_digits_ge l (v * 10 + (c - 48))
    have hguard : ¬ (v > (2147483647 - (c - 48)) / 10) := by omega
    rw [safe_atoi_loop_cons, if_neg (by simp [hdc]), if_neg hguard]
    simp only [List.foldl_cons]
    exact ih (v * 10 + (c - 48)) (fun x hx => hd x (List.mem_cons_of_mem _ hx)) hle

theorem safe_atoi_loop_bad : ∀ (l : List Nat) (v : Nat),
    (∃ c ∈ l, isdigit c = false) → safe_atoi_loop l v = none := by
  intro l
  induction l with
  | nil => intro v h; simp at h
  | cons c l ih =>
    intro v h
    by_cases hc : isdigit c = true
    · rw [safe_atoi_loop_cons, if_neg (by simp [hc])]
      rcases h with ⟨x, hx, hbad⟩
      rcases List.mem_cons.mp hx with rfl | hx'
      · rw [hc] at hbad; cases hbad
      · by_cases hg : v > (2147483647 - (c - 48)) / 10
        · rw [if_pos hg]
        · rw [if_neg hg]
          exact ih _ ⟨x, hx', hbad⟩
    · simp only [Bool.not_eq_true] at hc
      rw [safe_atoi_loop_cons, if_pos (by simp [hc])]

theorem safe_atoi_loop_overflow : ∀ (l : List Nat) (v : Nat),
    (∀ c ∈ l, isdigit c = true) → v ≤ 2147483647 →
    2147483647 < l.foldl (fun a c => a * 10 + (c - 48)) v →
    safe_atoi_loop l v = none := by
  intro l
  induction l with
  | nil => intro v _ hv hlt; simp at hlt; omega
  | cons c l ih =>
    intro v hd hv hlt
    have hdc : isdigit c = true := hd c (List.mem_cons_self _ _)
    have hcd : c - 48 ≤ 9 := by simp [isdigit] at hdc; omega
    simp only [List.foldl_cons] at hlt
    by_cases hg : v > (2147483647 - (c - 48)) / 10
    · rw [safe_atoi_loop_cons, if_neg (by simp [hdc]), if_pos hg]
    · have hstep : v * 10 + (c - 48) ≤ 2147483647 := by omega
      rw [safe_atoi_loop_cons, if_neg (by simp [hdc]), if_neg hg]
      exact ih _ (fun x hx => hd x (List.mem_cons_of_mem _ hx)) hstep hlt

/-- C2 (counterexample): the claim admits every value in the signed 32-bit
range, including the negative boundary -2147483648; but the source's
digit-by-digit guard bounds the accumulated magnitude by 2147483647, so the
string "-2147483648" is rejected (return 0, `*out` untouched) even though it
denotes a representable value. -/
theorem safe_atoi_int_min_cex :
    safe_atoi [45, 50, 49, 52, 55, 52, 56, 51, 54, 52, 56] 7 = (0, 7) := by decide

/-- C2 (amended): `safe_atoi` succeeds exactly on strings made of an optional
leading minus sign followed by one or more ASCII digits whose denoted
magnitude is at most 2147483647 (the exact negative boundary -2147483648 is
rejected), returning the signed value; it fails on null/empty input, on a
missing digit body, on any non-digit character outside the optional leading
sign, and on any magnitude exceeding 2147483647. -/
theorem safe_atoi_eq (s : List Nat) (hs : s ≠ []) (out : Int) :
    safe_atoi s out =
      (if isdigit ((atoi_body s).headD 0) = false then ((0 : Int), out)
       else
         match safe_atoi_loop (atoi_body s) 0 with
         | none => ((0 : Int), out)
         | some val => ((1 : Int), (val : Int) * (if s.headD 0 = 45 then (-1 : Int) else 1))) := by
  cases s with
  | nil => exact absurd rfl hs
  | cons c0 rest => rfl

theorem safe_atoi_spec (s : List Nat) (out : Int) :
    (s = [] → safe_atoi s out = (0, out))
  ∧ (atoi_body s = [] → safe_atoi s out = (0, out))
  ∧ ((∃ c ∈ atoi_body s, isdigit c = false) → safe_atoi s out = (0, out))
  ∧ ((∀ c ∈ atoi_body s, isdigit c = true) → 2147483647 < digitsVal (atoi_body s) →
       safe_atoi s out = (0, out))
  ∧ (atoi_body s ≠ [] → (∀ c ∈ atoi_body s, isdigit c = true) →
       digitsVal (atoi_body s) ≤ 2147483647 →
       safe_atoi s out = (1, if s.headD 0 = 45 then -(digitsVal (atoi_body s) : Int)
                             else (digitsVal (atoi_body s) : Int))) := by
  cases s with
  | nil =>
    refine ⟨fun _ => rfl, fun _ => rfl, ?_, ?_, ?_⟩
    · intro h; simp [atoi_body] at h
    · intro _ h; simp [atoi_body, digitsVal] at h
    · intro h; simp [atoi_body] at h
  | cons c0 rest =>
    have hne : (c0 :: rest) ≠ [] := List.cons_ne_nil _ _
    refine ⟨fun h => absurd h hne, ?_, ?_, ?_, ?_⟩
    · intro hb
      rw [safe_atoi_eq _ hne out, hb]
      rw [if_pos (by decide)]
    · intro h
      rw [safe_atoi_eq _ hne out]
      by_cases hd0 : isdigit ((atoi_body (c0 :: rest)).headD 0) = false
      · rw [if_pos hd0]
      · rw [if_neg hd0, safe_atoi_loop_bad _ 0 h]
    · intro hall hover
      rw [safe_atoi_eq _ hne out]
      by_cases hd0 : isdigit ((atoi_body (c0 :: rest)).headD 0) = false
      · rw [if_pos hd0]
      · rw [if_neg hd0, safe_atoi_loop_overflow _ 0 hall (by omega) hover]
    · intro hnb hall hle
      rw [safe_atoi_eq _ hne out]
      have hd0 : isdigit ((atoi_body (c0 :: rest)).headD 0) = true := by
        cases hb : atoi_body (c0 :: rest) with
        | nil => exact absurd hb hnb
        | cons b bs =>
          rw [hb] at hall
          exact hall b (List.mem_cons_self _ _)
      rw [if_neg (by rw [hd0]; decide)]
      rw [show digitsVal (atoi_body (c0 :: rest))
            = (atoi_body (c0 :: rest)).foldl (fun a c => a * 10 + (c - 48)) 0 from rfl] at hle ⊢
      rw [safe_atoi_loop_ok _ 0 hall hle]
      by_cases h45 : (c0 :: rest).headD 0 = 45
      · rw [if_pos h45, if_pos h45]
        exact congrArg (Prod.mk 1) (mul_neg_one _)
      · rw [if_neg h45, if_neg h45]
        exact congrArg (Prod.mk 1) (mul_one _)

/-- C2 (witness): the theorem applied to the concrete string "-123" with
`*out` initially 7: parsing succeeds and returns -123. -/
theorem safe_atoi_spec_witness : safe_atoi [45, 49, 50, 51] 7 = (1, -123) :=
  ((safe_atoi_spec [45, 49, 50, 51] 7).2.2.2.2 (by decide) (by decide) (by decide)).trans
    (by decide)

theorem safe_atoi_fail_or_succeed (s : List Nat) (out : Int) :
    safe_atoi s out = (0, out) ∨ (safe_atoi s out).1 = 1 := by
  cases s with
  | nil => exact Or.inl rfl
  | cons c0 rest =>
    rw [safe_atoi_eq _ (List.cons_ne_nil _ _) out]
    by_cases hd0 : isdigit ((atoi_body (c0 :: rest)).headD 0) = false
    · rw [if_pos hd0]
      exact Or.inl rfl
    · rw [if_neg hd0]
      cases hloop : safe_atoi_loop (atoi_body (c0 :: rest)) 0 with
      | none => exact Or.inl rfl
      | some v => exact Or.inr rfl
/-- C8 (counterexample): the claim asserts mutually distinguishable failure
indications for the three failure causes; but `safe_atoi` reports every
failure identically — return value 0 with `*out` untouched — so null/empty
input, an invalid character ("a"), and overflow ("3000000000") are
observationally identical failures. -/
theorem safe_atoi_failures_indistinct_cex :
    safe_atoi [] 5 = safe_atoi [97] 5
  ∧ safe_atoi [97] 5 = safe_atoi [51, 48, 48, 48, 48, 48, 48, 48, 48, 48] 5 := by decide

/-- C8 (amended): `safe_atoi` reports all three failure causes (null/empty
input, invalid character, overflow) with one and the same indication: return
value 0 and an unchanged `*out`; the causes are not distinguishable from the
call's observable result. -/
theorem safe_atoi_failure_uniform (s : List Nat) (out : Int)
    (h : (safe_atoi s out).1 ≠ 1) : safe_atoi s out = (0, out) := by
  rcases safe_atoi_fail_or_succeed s out with h0 | h1
  · exact h0
  · exact absurd h1 h

/-- C8 (witness): the amended theorem applied to the failing input "a" with
`*out` initially 5. -/
theorem safe_atoi_failure_uniform_witness :
    (safe_atoi [97] 5).1 ≠ 1 ∧ safe_atoi [97] 5 = (0, 5) :=
  ⟨by decide, safe_atoi_failure_uniform [97] 5 (by decide)⟩

/-- C9: on every failing call (return value 0) `safe_atoi` leaves the
output parameter unchanged; `*out` is written only on success. -/
theorem safe_atoi_out_frame (s : List Nat) (out : Int)
    (h : (safe_atoi s out).1 = 0) : (safe_atoi s out).2 = out := by
  rcases safe_atoi_fail_or_succeed s out with h0 | h1
  · rw [h0]
  · rw [h1] at h; cases h

/-- C9 (witness): the theorem applied to the failing input "1a" with `*out`
initially 3: the call fails and `*out` still holds 3. -/
theorem safe_atoi_out_frame_witness :
    (safe_atoi [49, 97] 3).1 = 0 ∧ (safe_atoi [49, 97] 3).2 = 3 :=
  ⟨by decide, safe_atoi_out_frame [49, 97] 3 (by decide)⟩

/-- Byte string "Internacional" used as concrete input below. -/
def nome_internacional : List Nat :=
  [73, 110, 116, 101, 114, 110, 97, 99, 105, 111, 110, 97, 108]

/-- C1 (witness): the amended theorem applied to the 13-code-point string
"Internacional" at width 10: the output has exactly 10 code points, via the
truncation-plus-ellipsis branch. -/
theorem print_utf8_padded_spec_witness :
    (utf8_len (print_utf8_padded nome_internacional 10) : Int) = 10
  ∧ ((utf8_len nome_internacional : Int) = 10 →
       print_utf8_padded nome_internacional 10 = nome_internacional)
  ∧ ((utf8_len nome_internacional : Int) < 10 →
       print_utf8_padded nome_internacional 10
         = nome_internacional ++ List.replicate ((10 : Int) - (utf8_len nome_internacional : Int)).toNat 32)
  ∧ ((10 : Int) < (utf8_len nome_internacional : Int) →
       print_utf8_padded nome_internacional 10
         = ((utf8_chunks nome_internacional).take (((10 : Int) - 1)).toNat).flatten
             ++ [0xE2, 0x80, 0xA6]) :=
  print_utf8_padded_spec nome_internacional 10 (by decide) (by decide) (by decide)

theorem swci_cons (t q : Nat) (ts qs : List Nat) :
    starts_with_case_insensitive_impl (t :: ts) (q :: qs)
      = if tolower t = tolower q then starts_with_case_insensitive_impl ts qs else false := rfl

theorem starts_with_ci_iff : ∀ (pat text : List Nat),
    str_starts_with_case_insensitive text pat = true ↔
      ∃ rest, str_to_lower pat ++ rest = str_to_lower text := by
  intro pat
  induction pat with
  | nil =>
    intro text
    constructor
    · intro _; exact ⟨str_to_lower text, rfl⟩
    · intro _; cases text <;> rfl
  | cons q qs ih =>
    intro text
    cases text with
    | nil =>
      constructor
      · intro h
        rw [show str_starts_with_case_insensitive [] (q :: qs) = false from rfl] at h
        cases h
      · rintro ⟨rest, hr⟩
        simp [str_to_lower] at hr
    | cons t ts =>
      rw [show str_starts_with_case_insensitive (t :: ts) (q :: qs)
            = starts_with_case_insensitive_impl (t :: ts) (q :: qs) from rfl, swci_cons]
      by_cases he : tolower t = tolower q
      · rw [if_pos he]
        rw [show starts_with_case_insensitive_impl ts qs
              = str_starts_with_case_insensitive ts qs from rfl, ih ts]
        constructor
        · rintro ⟨rest, hr⟩
          refine ⟨rest, ?_⟩
          simp only [str_to_lower, List.map_cons, List.cons_append] at hr ⊢
          rw [he, hr]
        · rintro ⟨rest, hr⟩
          refine ⟨rest, ?_⟩
          simp only [str_to_lower, List.map_cons, List.cons_append, List.cons.injEq] at hr
          exact hr.2
      · rw [if_neg he]
        constructor
        · intro h; cases h
        · rintro ⟨rest, hr⟩
          simp only [str_to_lower, List.map_cons, List.cons_append, List.cons.injEq] at hr
          exact absurd hr.1.symm he

/-- C6: for ASCII strings, `str_starts_with_case_insensitive text pat` holds
exactly when the ASCII-lowercasing of `text` has the ASCII-lowercasing of
`pat` as a literal initial segment; the empty pattern always matches. -/
theorem str_starts_with_ci_spec (text pat : List Nat)
    (ht : ∀ b ∈ text, b < 128) (hp : ∀ b ∈ pat, b < 128) :
    (str_starts_with_case_insensitive text pat = true ↔
       ∃ rest, str_to_lower pat ++ rest = str_to_lower text)
  ∧ str_starts_with_case_insensitive text [] = true :=
  ⟨starts_with_ci_iff pat text, (starts_with_ci_iff [] text).mpr ⟨str_to_lower text, rfl⟩⟩

/-- C6 (witness): the theorem applied to text "Flamengo" and candidate start
"fla": the match holds case-insensitively. -/
theorem str_starts_with_ci_spec_witness :
    (str_starts_with_case_insensitive [70, 108, 97, 109, 101, 110, 103, 111]
        [102, 108, 97] = true ↔
       ∃ rest, str_to_lower [102, 108, 97] ++ rest
         = str_to_lower [70, 108, 97, 109, 101, 110, 103, 111])
  ∧ str_starts_with_case_insensitive [70, 108, 97, 109, 101, 110, 103, 111] [] = true :=
  str_starts_with_ci_spec _ _ (by decide) (by decide)

/-- Embedding of the `Time` record of `bd_times.h`: a team with id, UTF-8
name and accumulated statistics (wins `v`, draws `e`, losses `d`, goals
scored `gm`, goals conceded `gs`).  The registry `BDTimes` (a fixed array
plus a count of valid entries) is modelled as the list of its first `n`
entries. -/
structure Time where
  id : Int
  nome : List Nat
  v : Int
  e : Int
  d : Int
  gm : Int
  gs : Int
deriving DecidableEq, Inhabited

/-- Embedding of the `Partida` record of `bd_partidas.h`: match id, the two
team ids and the two goal counts.  The registry `BDPartidas` is modelled as
the list of its valid entries. -/
structure Partida where
  id : Int
  time1 : Int
  time2 : Int
  g1 : Int
  g2 : Int
deriving DecidableEq, Inhabited

/-- Embedding of `time_acumular_partida` from `bd_times.c`: adds the goals to
the running totals and increments exactly one of the win/draw/loss counters
according to the result. -/
def time_acumular_partida (t : Time) (gols_feitos gols_sofridos : Int) : Time :=
  let t1 : Time := { t with gm := t.gm + gols_feitos, gs := t.gs + gols_sofridos }
  if gols_feitos > gols_sofridos then { t1 with v := t1.v + 1 }
  else if gols_feitos = gols_sofridos then { t1 with e := t1.e + 1 }
  else { t1 with d := t1.d + 1 }

/-- C10: each call of `time_acumular_partida` adds the goal arguments to
`gm`/`gs`, increments exactly one of `v`/`e`/`d` by one according to the
sign of the goal difference, leaves `id` and `nome` unchanged, and grows
`v + e + d` by exactly one. -/
theorem time_acumular_partida_spec (t : Time) (gols_feitos gols_sofridos : Int) :
    (time_acumular_partida t gols_feitos gols_sofridos).id = t.id
  ∧ (time_acumular_partida t gols_feitos gols_sofridos).nome = t.nome
  ∧ (time_acumular_partida t gols_feitos gols_sofridos).gm = t.gm + gols_feitos
  ∧ (time_acumular_partida t gols_feitos gols_sofridos).gs = t.gs + gols_sofridos
  ∧ (time_acumular_partida t gols_feitos gols_sofridos).v
      = (if gols_feitos > gols_sofridos then t.v + 1 else t.v)
  ∧ (time_acumular_partida t gols_feitos gols_sofridos).e
      = (if gols_feitos = gols_sofridos then t.e + 1 else t.e)
  ∧ (time_acumular_partida t gols_feitos gols_sofridos).d
      = (if gols_feitos < gols_sofridos then t.d + 1 else t.d)
  ∧ (time_acumular_partida t gols_feitos gols_sofridos).v
      + (time_acumular_partida t gols_feitos gols_sofridos).e
      + (time_acumular_partida t gols_feitos gols_sofridos).d
      = t.v + t.e + t.d + 1 := by
  unfold time_acumular_partida
  by_cases h1 : gols_feitos > gols_sofridos
  · rw [if_pos h1]
    refine ⟨rfl, rfl, rfl, rfl, ?_, ?_, ?_, ?_⟩
    · rw [if_pos h1]
    · rw [if_neg (by omega)]
    · rw [if_neg (by omega)]
    · show t.v + 1 + t.e + t.d = t.v + t.e + t.d + 1
      omega
  · rw [if_neg h1]
    by_cases h2 : gols_feitos = gols_sofridos
    · rw [if_pos h2]
      refine ⟨rfl, rfl, rfl, rfl, ?_, ?_, ?_, ?_⟩
      · rw [if_neg h1]
      · rw [if_pos h2]
      · rw [if_neg (by omega)]
      · show t.v + (t.e + 1) + t.d = t.v + t.e + t.d + 1
        omega
    · rw [if_neg h2]
      refine ⟨rfl, rfl, rfl, rfl, ?_, ?_, ?_, ?_⟩
      · rw [if_neg h1]
      · rw [if_neg h2]
      · rw [if_pos (by omega)]
      · show t.v + t.e + (t.d + 1) = t.v + t.e + t.d + 1
        omega

/-- Embedding of `bdtimes_buscar_por_id` from `bd_times.c`: linear scan,
first match wins; the C function returns a pointer into the array, modelled
here as the position of the first entry with the given id. -/
def bdtimes_buscar_por_id : List Time → Int → Option Nat
  | [], _ => none
  | t :: rest, i => if t.id = i then some 0 else (bdtimes_buscar_por_id rest i).map (· + 1)

example : bdtimes_buscar_por_id [⟨3, [], 0, 0, 0, 0, 0⟩, ⟨7, [], 0, 0, 0, 0, 0⟩] 7
    = some 1 := by decide
example : bdtimes_buscar_por_id [⟨3, [], 0, 0, 0, 0, 0⟩] 99 = none := by decide

/-- Loop of `bdtimes_buscar_por_prefixo` from `bd_times.c`: scans the teams
in registry order, counts every match in `found`, and appends the position
to the output array only while `found < max_indices`. -/
def buscar_prefixo_go (prefixo : List Nat) (max_indices : Nat) :
    List Time → Nat → Nat → List Nat → Nat × List Nat
  | [], _, found, acc => (found, acc)
  | t :: rest, i, found, acc =>
    if str_starts_with_case_insensitive t.nome prefixo then
      buscar_prefixo_go prefixo max_indices rest (i + 1) (found + 1)
        (if found < max_indices then acc ++ [i] else acc)
    else
      buscar_prefixo_go prefixo max_indices rest (i + 1) found acc

/-- Embedding of `bdtimes_buscar_por_prefixo` from `bd_times.c`: returns the
total number of matching teams together with the positions actually written
into the caller's array. -/
def bdtimes_buscar_por_prefixo (bd : List Time) (prefixo : List Nat) (max_indices : Nat) :
    Nat × List Nat :=
  buscar_prefixo_go prefixo max_indices bd 0 0 []

/-- Specification view of the search: the ascending list of registry
positions (counted from `i`) whose team name matches the candidate start
case-insensitively. -/
def matching_positions (prefixo : List Nat) : List Time → Nat → List Nat
  | [], _ => []
  | t :: rest, i =>
    if str_starts_with_case_insensitive t.nome prefixo then
      i :: matching_positions prefixo rest (i + 1)
    else matching_positions prefixo rest (i + 1)

theorem buscar_prefixo_go_cons (prefixo : List Nat) (max_indices : Nat) (t : Time)
    (rest : List Time) (i found : Nat) (acc : List Nat) :
    buscar_prefixo_go prefixo max_indices (t :: rest) i found acc =
      if str_starts_with_case_insensitive t.nome prefixo then
        buscar_prefixo_go prefixo max_indices rest (i + 1) (found + 1)
          (if found < max_indices then acc ++ [i] else acc)
      else
        buscar_prefixo_go prefixo max_indices rest (i + 1) found acc := rfl

theorem matching_positions_cons (prefixo : List Nat) (t : Time) (rest : List Time) (i : Nat) :
    matching_positions prefixo (t :: rest) i =
      if str_starts_with_case_insensitive t.nome prefixo then
        i :: matching_positions prefixo rest (i + 1)
      else matching_positions prefixo rest (i + 1) := rfl

theorem buscar_prefixo_go_spec (prefixo : List Nat) (max_indices : Nat) :
    ∀ (ts : List Time) (i found : Nat) (acc : List Nat),
      buscar_prefixo_go prefixo max_indices ts i found acc
        = (found + (matching_positions prefixo ts i).length,
           acc ++ (matching_positions prefixo ts i).take (max_indices - found)) := by
  intro ts
  induction ts with
  | nil => intro i found acc; simp [buscar_prefixo_go, matching_positions]
  | cons t rest ih =>
    intro i found acc
    rw [buscar_prefixo_go_cons, matching_positions_cons]
    by_cases hm : str_starts_with_case_insensitive t.nome prefixo = true
    · rw [if_pos hm, if_pos hm, ih]
      simp only [Prod.mk.injEq, List.length_cons]
      refine ⟨by omega, ?_⟩
      by_cases hf : found < max_indices
      · rw [if_pos hf]
        have hsub : max_indices - found = (max_indices - (found + 1)) + 1 := by omega
        rw [hsub, List.take_succ_cons, List.append_assoc]
        rfl
      · rw [if_neg hf]
        have h0 : max_indices - found = 0 := by omega
        have h1 : max_indices - (found + 1) = 0 := by omega
        rw [h0, h1]
        simp
    · rw [if_neg hm, if_neg hm, ih]

theorem matching_positions_sorted (prefixo : List Nat) :
    ∀ (ts : List Time) (i : Nat),
      (∀ j ∈ matching_positions prefixo ts i, i ≤ j)
    ∧ List.Pairwise (· < ·) (matching_positions prefixo ts i) := by
  intro ts
  induction ts with
  | nil => intro i; exact ⟨fun j hj => absurd hj (List.not_mem_nil j), List.Pairwise.nil⟩
  | cons t rest ih =>
    intro i
    rw [matching_positions_cons]
    by_cases hm : str_starts_with_case_insensitive t.nome prefixo = true
    · rw [if_pos hm]
      refine ⟨?_, ?_⟩
      · intro j hj
        rcases List.mem_cons.mp hj with rfl | hj'
        · exact Nat.le_refl _
        · have := (ih (i + 1)).1 j hj'
          omega
      · refine List.Pairwise.cons ?_ (ih (i + 1)).2
        intro j hj
        have := (ih (i + 1)).1 j hj
        omega
    · rw [if_neg hm]
      refine ⟨fun j hj => ?_, (ih (i + 1)).2⟩
      have := (ih (i + 1)).1 j hj
      omega

theorem matching_positions_mem (prefixo : List Nat) :
    ∀ (ts : List Time) (i j : Nat),
      j ∈ matching_positions prefixo ts i ↔
        i ≤ j ∧ j - i < ts.length ∧
        str_starts_with_case_insensitive ((ts.getD (j - i) default).nome) prefixo = true := by
  intro ts
  induction ts with
  | nil =>
    intro i j
    simp [matching_positions]
  | cons t rest ih =>
    intro i j
    rw [matching_positions_cons]
    by_cases hm : str_starts_with_case_insensitive t.nome prefixo = true
    · rw [if_pos hm]
      rw [List.mem_cons, ih (i + 1) j]
      constructor
      · rintro (rfl | ⟨h1, h2, h3⟩)
        · refine ⟨Nat.le_refl _, by simp, ?_⟩
          rw [Nat.sub_self]
          simpa using hm
        · refine ⟨by omega, by simp only [List.length_cons]; omega, ?_⟩
          have hji : j - i = (j - (i + 1)) + 1 := by omega
          rw [hji]
          simpa using h3
      · rintro ⟨h1, h2, h3⟩
        by_cases hj : j = i
        · exact Or.inl hj
        · refine Or.inr ⟨by omega, ?_, ?_⟩
          · simp only [List.length_cons] at h2; omega
          · have hji : j - i = (j - (i + 1)) + 1 := by omega
            rw [hji] at h3
            simpa using h3
    · rw [if_neg hm]
      rw [ih (i + 1) j]
      constructor
      · rintro ⟨h1, h2, h3⟩
        refine ⟨by omega, by simp only [List.length_cons]; omega, ?_⟩
        have hji : j - i = (j - (i + 1)) + 1 := by omega
        rw [hji]
        simpa using h3
      · rintro ⟨h1, h2, h3⟩
        by_cases hj : j = i
        · subst hj
          rw [Nat.sub_self] at h3
          simp only [List.getD_cons_zero] at h3
          exact absurd h3 hm
        · refine ⟨by omega, ?_, ?_⟩
          · simp only [List.length_cons] at h2; omega
          · have hji : j - i = (j - (i + 1)) + 1 := by omega
            rw [hji] at h3
            simpa using h3

/-- C7: `bdtimes_buscar_por_prefixo` returns the total number of teams whose
name matches the candidate start case-insensitively — also when that total
exceeds the output capacity `max_indices` — and writes exactly the first
`min(total, max_indices)` matching registry positions, in ascending position
order. -/
theorem bdtimes_buscar_por_prefixo_spec (bd : List Time) (prefixo : List Nat)
    (max_indices : Nat) :
    (bdtimes_buscar_por_prefixo bd prefixo max_indices).1
        = (matching_positions prefixo bd 0).length
  ∧ (bdtimes_buscar_por_prefixo bd prefixo max_indices).2
        = (matching_positions prefixo bd 0).take max_indices
  ∧ List.Pairwise (· < ·) (matching_positions prefixo bd 0)
  ∧ (∀ j, j ∈ matching_positions prefixo bd 0 ↔
        j < bd.length ∧
        str_starts_with_case_insensitive ((bd.getD j default).nome) prefixo = true) := by
  have hgo := buscar_prefixo_go_spec prefixo max_indices bd 0 0 []
  refine ⟨?_, ?_, (matching_positions_sorted prefixo bd 0).2, ?_⟩
  · rw [show bdtimes_buscar_por_prefixo bd prefixo max_indices
        = buscar_prefixo_go prefixo max_indices bd 0 0 [] from rfl, hgo]
    simp
  · rw [show bdtimes_buscar_por_prefixo bd prefixo max_indices
        = buscar_prefixo_go prefixo max_indices bd 0 0 [] from rfl, hgo]
    simp
  · intro j
    rw [matching_positions_mem prefixo bd 0 j]
    simp

example :
    bdtimes_buscar_por_prefixo
      [⟨0, [70, 108, 97, 109, 101, 110, 103, 111], 0, 0, 0, 0, 0⟩,
       ⟨1, [70, 108, 117, 109, 105, 110, 101, 110, 115, 101], 0, 0, 0, 0, 0⟩,
       ⟨2, [83, 97, 110, 116, 111, 115], 0, 0, 0, 0, 0⟩]
      [102, 108] 8 = (2, [0, 1]) := by decide

example :
    bdtimes_buscar_por_prefixo
      [⟨0, [70, 108, 97], 0, 0, 0, 0, 0⟩, ⟨1, [70, 108, 117], 0, 0, 0, 0, 0⟩,
       ⟨2, [102, 108, 111], 0, 0, 0, 0, 0⟩]
      [102, 108] 1 = (3, [0]) := by decide

/-- Model of the `strtok(line, ",")` token stream used by
`parse_partida_linha`: the maximal nonempty runs of non-comma bytes
(consecutive separators yield no empty token, matching `strtok`). -/
def strtok_commas (l : List Nat) : List (List Nat) :=
  (l.splitOn 44).filter (fun t => !t.isEmpty)

/-- Loop of `parse_partida_linha` from `bd_partidas.c`: consumes tokens while
one is available and fewer than five have been taken, trimming each token and
parsing it with `safe_atoi` (failure aborts the whole parse); returns the
number of consumed tokens and their values. -/
def parse_partida_loop : List (List Nat) → Nat → Option (Nat × List Int)
  | [], i => some (i, [])
  | tok :: rest, i =>
    if i < 5 then
      let r := safe_atoi (chomp (str_trim tok)) 0
      if r.1 = 0 then none
      else
        match parse_partida_loop rest (i + 1) with
        | none => none
        | some (j, vs) => some (j, r.2 :: vs)
    else some (i, [])

/-- Embedding of `parse_partida_linha` from `bd_partidas.c`: chomps and trims
the line, walks the `strtok` token stream taking at most five integer fields,
and fails unless exactly five were taken; the five values become the match
record. -/
def parse_partida_linha (linha : List Nat) : Option Partida :=
  match parse_partida_loop (strtok_commas (str_trim (chomp linha))) 0 with
  | none => none
  | some (i, vals) =>
    if i ≠ 5 then none
    else some ⟨vals.getD 0 0, vals.getD 1 0, vals.getD 2 0, vals.getD 3 0, vals.getD 4 0⟩

example : parse_partida_linha [48, 44, 48, 44, 49, 44, 50, 44, 49]
    = some ⟨0, 0, 1, 2, 1⟩ := by decide
example : parse_partida_linha [49, 44, 50, 44, 51, 44, 52] = none := by decide
example : parse_partida_linha [49, 44, 50, 44, 97, 44, 52, 44, 53] = none := by decide

theorem parse_partida_loop_cons (tok : List Nat) (rest : List (List Nat)) (i : Nat) :
    parse_partida_loop (tok :: rest) i =
      if i < 5 then
        if (safe_atoi (chomp (str_trim tok)) 0).1 = 0 then none
        else
          match parse_partida_loop rest (i + 1) with
          | none => none
          | some (j, vs) => some (j, (safe_atoi (chomp (str_trim tok)) 0).2 :: vs)
      else some (i, []) := rfl

theorem parse_partida_loop_isSome :
    ∀ (ts : List (List Nat)) (i : Nat),
      (parse_partida_loop ts i).isSome = true ↔
        ∀ tok ∈ ts.take (5 - i), (safe_atoi (chomp (str_trim tok)) 0).1 ≠ 0 := by
  intro ts
  induction ts with
  | nil =>
    intro i
    simp [parse_partida_loop]
  | cons tok rest ih =>
    intro i
    rw [parse_partida_loop_cons]
    by_cases hi : i < 5
    · rw [if_pos hi]
      have hk : 5 - i = (5 - (i + 1)) + 1 := by omega
      rw [hk, List.take_succ_cons]
      by_cases hfail : (safe_atoi (chomp (str_trim tok)) 0).1 = 0
      · rw [if_pos hfail]
        simp [hfail]
      · rw [if_neg hfail]
        cases hrec : parse_partida_loop rest (i + 1) with
        | none =>
          have := (ih (i + 1))
          rw [hrec] at this
          simp only [Option.isSome_none, Bool.false_eq_true, false_iff] at this
          push_neg at this
          rcases this with ⟨bad, hbad, hbad2⟩
          simp only [Option.isSome_none, Bool.false_eq_true, false_iff]
          push_neg
          exact ⟨bad, List.mem_cons_of_mem _ hbad, hbad2⟩
        | some jvs =>
          rcases jvs with ⟨j, vs⟩
          have := ih (i + 1)
          rw [hrec] at this
          simp only [Option.isSome_some, true_iff] at this
          simp only [Option.isSome_some, true_iff]
          intro t ht
          rcases List.mem_cons.mp ht with rfl | ht'
          · exact hfail
          · exact this t ht'
    · rw [if_neg hi]
      have hk : 5 - i = 0 := by omega
      rw [hk]
      simp

theorem parse_partida_loop_count :
    ∀ (ts : List (List Nat)) (i j : Nat) (vs : List Int),
      parse_partida_loop ts i = some (j, vs) → j = i + min (5 - i) ts.length := by
  intro ts
  induction ts with
  | nil =>
    intro i j vs h
    simp only [parse_partida_loop, Option.some.injEq, Prod.mk.injEq] at h
    simp [← h.1]
  | cons tok rest ih =>
    intro i j vs h
    rw [parse_partida_loop_cons] at h
    by_cases hi : i < 5
    · rw [if_pos hi] at h
      by_cases hfail : (safe_atoi (chomp (str_trim tok)) 0).1 = 0
      · rw [if_pos hfail] at h
        cases h
      · rw [if_neg hfail] at h
        cases hrec : parse_partida_loop rest (i + 1) with
        | none => rw [hrec] at h; cases h
        | some jvs =>
          rcases jvs with ⟨j', vs'⟩
          rw [hrec] at h
          simp only [Option.some.injEq, Prod.mk.injEq] at h
          have := ih (i + 1) j' vs' hrec
          simp only [List.length_cons]
          omega
    · rw [if_neg hi] at h
      simp only [Option.some.injEq, Prod.mk.injEq] at h
      have h0 : 5 - i = 0 := by omega
      simp [← h.1, h0]

theorem map_set_comm {α β : Type} (f : α → β) :
    ∀ (l : List α) (n : Nat) (a : α), (l.set n a).map f = (l.map f).set n (f a) := by
  intro l
  induction l with
  | nil => intro n a; rfl
  | cons x l ih =>
    intro n a
    cases n with
    | zero => rfl
    | succ n => simp only [List.set_cons_succ, List.map_cons, ih]

theorem set_getD_self {α : Type} : ∀ (l : List α) (i : Nat) (d : α),
    l.set i (l.getD i d) = l := by
  intro l
  induction l with
  | nil => intro i d; rfl
  | cons a l ih =>
    intro i d
    cases i with
    | zero => rfl
    | succ i => simp only [List.set_cons_succ, List.getD_cons_succ, ih]

theorem getD_map_comm {α β : Type} (f : α → β) : ∀ (l : List α) (i : Nat) (d : α),
    (l.map f).getD i (f d) = f (l.getD i d) := by
  intro l
  induction l with
  | nil => intro i d; rfl
  | cons a l ih =>
    intro i d
    cases i with
    | zero => rfl
    | succ i => simp only [List.map_cons, List.getD_cons_succ, ih]

theorem getD_set_self {α : Type} : ∀ (l : List α) (i : Nat) (a d : α), i < l.length →
    (l.set i a).getD i d = a := by
  intro l
  induction l with
  | nil => intro i a d h; simp at h
  | cons x l ih =>
    intro i a d h
    cases i with
    | zero => rfl
    | succ i =>
      simp only [List.set_cons_succ, List.getD_cons_succ]
      exact ih i a d (by simp only [List.length_cons] at h; omega)

theorem getD_set_ne {α : Type} : ∀ (l : List α) (i j : Nat) (a d : α), i ≠ j →
    (l.set i a).getD j d = l.getD j d := by
  intro l
  induction l with
  | nil => intro i j a d h; rfl
  | cons x l ih =>
    intro i j a d h
    cases i with
    | zero =>
      cases j with
      | zero => exact absurd rfl h
      | succ j => rfl
    | succ i =>
      cases j with
      | zero => rfl
      | succ j =>
        simp only [List.set_cons_succ, List.getD_cons_succ]
        exact ih i j a d (by omega)

theorem buscar_por_id_lt_length : ∀ (l : List Time) (x : Int) (i : Nat),
    bdtimes_buscar_por_id l x = some i → i < l.length := by
  intro l
  induction l with
  | nil => intro x i h; cases h
  | cons t rest ih =>
    intro x i h
    rw [show bdtimes_buscar_por_id (t :: rest) x
        = (if t.id = x then some 0 else (bdtimes_buscar_por_id rest x).map (· + 1)) from rfl] at h
    by_cases ht : t.id = x
    · rw [if_pos ht] at h
      cases h
      simp
    · rw [if_neg ht] at h
      cases hrec : bdtimes_buscar_por_id rest x with
      | none => rw [hrec] at h; cases h
      | some i' =>
        rw [hrec] at h
        simp only [Option.map_some', Option.some.injEq] at h
        have := ih x i' hrec
        simp only [List.length_cons]
        omega

theorem buscar_por_id_congr : ∀ (l₁ l₂ : List Time),
    l₁.map Time.id = l₂.map Time.id → ∀ x,
    bdtimes_buscar_por_id l₁ x = bdtimes_buscar_por_id l₂ x := by
  intro l₁
  induction l₁ with
  | nil =>
    intro l₂ h x
    cases l₂ with
    | nil => rfl
    | cons b l₂ => simp at h
  | cons a l₁ ih =>
    intro l₂ h x
    cases l₂ with
    | nil => simp at h
    | cons b l₂ =>
      simp only [List.map_cons, List.cons.injEq] at h
      rw [show bdtimes_buscar_por_id (a :: l₁) x
          = (if a.id = x then some 0 else (bdtimes_buscar_por_id l₁ x).map (· + 1)) from rfl,
        show bdtimes_buscar_por_id (b :: l₂) x
          = (if b.id = x then some 0 else (bdtimes_buscar_por_id l₂ x).map (· + 1)) from rfl,
        h.1, ih l₂ h.2 x]

/-- Per-side and skipped-side update of one `bdpartidas_aplicar_em_bdtimes`
iteration once both teams resolved at positions `i1`, `i2`: the home team is
accumulated first through its pointer, then the away team with the goals
reversed (the two pointers alias when `i1 = i2`). -/
def aplicar_result (bdt : List Time) (p : Partida) (i1 i2 : Nat) : List Time :=
  let bdt1 := bdt.set i1 (time_acumular_partida (bdt.getD i1 default) p.g1 p.g2)
  bdt1.set i2 (time_acumular_partida (bdt1.getD i2 default) p.g2 p.g1)

/-- One iteration of `bdpartidas_aplicar_em_bdtimes` from `bd_partidas.c`:
resolves both team ids; if either is missing the match is skipped and a
diagnostic carrying the match id is emitted; otherwise
`time_acumular_partida` is applied once per side with reversed goals. -/
def bdpartidas_aplicar_uma (bdt : List Time) (diags : List Int) (p : Partida) :
    List Time × List Int :=
  match bdtimes_buscar_por_id bdt p.time1, bdtimes_buscar_por_id bdt p.time2 with
  | some i1, some i2 => (aplicar_result bdt p i1 i2, diags)
  | _, _ => (bdt, diags ++ [p.id])

/-- Loop of `bdpartidas_aplicar_em_bdtimes`: processes the matches in order,
threading the team registry and the diagnostic log. -/
def bdpartidas_aplicar_go (bdt : List Time) (diags : List Int) :
    List Partida → List Time × List Int
  | [] => (bdt, diags)
  | p :: rest =>
    bdpartidas_aplicar_go (bdpartidas_aplicar_uma bdt diags p).1
      (bdpartidas_aplicar_uma bdt diags p).2 rest

/-- Embedding of `bdpartidas_aplicar_em_bdtimes` from `bd_partidas.c`:
folds every loaded match into the team statistics, returning the final
registry together with the ids of the skipped matches (the diagnostics). -/
def bdpartidas_aplicar_em_bdtimes (bdp : List Partida) (bdt : List Time) :
    List Time × List Int :=
  bdpartidas_aplicar_go bdt [] bdp

theorem aplicar_uma_of_missing (bdt : List Time) (diags : List Int) (p : Partida)
    (h : bdtimes_buscar_por_id bdt p.time1 = none ∨
         bdtimes_buscar_por_id bdt p.time2 = none) :
    bdpartidas_aplicar_uma bdt diags p = (bdt, diags ++ [p.id]) := by
  unfold bdpartidas_aplicar_uma
  cases h1 : bdtimes_buscar_por_id bdt p.time1 with
  | none => cases h2 : bdtimes_buscar_por_id bdt p.time2 <;> rfl
  | some i1 =>
    cases h2 : bdtimes_buscar_por_id bdt p.time2 with
    | none => rfl
    | some i2 =>
      rcases h with h | h
      · rw [h1] at h; cases h
      · rw [h2] at h; cases h

theorem aplicar_uma_of_found (bdt : List Time) (diags : List Int) (p : Partida)
    (i1 i2 : Nat) (h1 : bdtimes_buscar_por_id bdt p.time1 = some i1)
    (h2 : bdtimes_buscar_por_id bdt p.time2 = some i2) :
    bdpartidas_aplicar_uma bdt diags p = (aplicar_result bdt p i1 i2, diags) := by
  unfold bdpartidas_aplicar_uma
  rw [h1, h2]

theorem acum_preserves_id (t : Time) (gf gs : Int) :
    (time_acumular_partida t gf gs).id = t.id := by
  unfold time_acumular_partida
  split_ifs <;> rfl

theorem map_id_set_acum (l : List Time) (i : Nat) (gf gs : Int) :
    (l.set i (time_acumular_partida (l.getD i default) gf gs)).map Time.id
      = l.map Time.id := by
  rw [map_set_comm Time.id, acum_preserves_id,
    show (l.getD i default).id = (l.map Time.id).getD i (Time.id default) from
      (getD_map_comm Time.id l i default).symm]
  exact set_getD_self _ _ _

theorem aplicar_result_map_id (bdt : List Time) (p : Partida) (i1 i2 : Nat) :
    (aplicar_result bdt p i1 i2).map Time.id = bdt.map Time.id := by
  unfold aplicar_result
  rw [map_id_set_acum, map_id_set_acum]

theorem aplicar_uma_map_id (bdt : List Time) (diags : List Int) (p : Partida) :
    ((bdpartidas_aplicar_uma bdt diags p).1).map Time.id = bdt.map Time.id := by
  unfold bdpartidas_aplicar_uma
  cases h1 : bdtimes_buscar_por_id bdt p.time1 with
  | none => cases h2 : bdtimes_buscar_por_id bdt p.time2 <;> rfl
  | some i1 =>
    cases h2 : bdtimes_buscar_por_id bdt p.time2 with
    | none => rfl
    | some i2 => exact aplicar_result_map_id bdt p i1 i2

theorem aplicar_uma_fst_indep (bdt : List Time) (d d' : List Int) (p : Partida) :
    (bdpartidas_aplicar_uma bdt d p).1 = (bdpartidas_aplicar_uma bdt d' p).1 := by
  unfold bdpartidas_aplicar_uma
  cases h1 : bdtimes_buscar_por_id bdt p.time1 with
  | none => cases h2 : bdtimes_buscar_por_id bdt p.time2 <;> rfl
  | some i1 => cases h2 : bdtimes_buscar_por_id bdt p.time2 <;> rfl

theorem aplicar_uma_snd_mono (bdt : List Time) (d : List Int) (p : Partida) :
    ∃ e, (bdpartidas_aplicar_uma bdt d p).2 = d ++ e := by
  unfold bdpartidas_aplicar_uma
  cases h1 : bdtimes_buscar_por_id bdt p.time1 with
  | none => cases h2 : bdtimes_buscar_por_id bdt p.time2 <;> exact ⟨[p.id], rfl⟩
  | some i1 =>
    cases h2 : bdtimes_buscar_por_id bdt p.time2 with
    | none => exact ⟨[p.id], rfl⟩
    | some i2 => exact ⟨[], by simp⟩

theorem aplicar_go_fst_indep : ∀ (ps : List Partida) (bdt : List Time) (d d' : List Int),
    (bdpartidas_aplicar_go bdt d ps).1 = (bdpartidas_aplicar_go bdt d' ps).1 := by
  intro ps
  induction ps with
  | nil => intro bdt d d'; rfl
  | cons p rest ih =>
    intro bdt d d'
    show (bdpartidas_aplicar_go (bdpartidas_aplicar_uma bdt d p).1
        (bdpartidas_aplicar_uma bdt d p).2 rest).1 = _
    rw [aplicar_uma_fst_indep bdt d d' p]
    exact ih _ _ _

theorem aplicar_go_map_id : ∀ (ps : List Partida) (bdt : List Time) (d : List Int),
    ((bdpartidas_aplicar_go bdt d ps).1).map Time.id = bdt.map Time.id := by
  intro ps
  induction ps with
  | nil => intro bdt d; rfl
  | cons p rest ih =>
    intro bdt d
    show ((bdpartidas_aplicar_go (bdpartidas_aplicar_uma bdt d p).1
        (bdpartidas_aplicar_uma bdt d p).2 rest).1).map Time.id = _
    rw [ih, aplicar_uma_map_id]

theorem aplicar_go_snd_mono : ∀ (ps : List Partida) (bdt : List Time) (d : List Int),
    ∃ e, (bdpartidas_aplicar_go bdt d ps).2 = d ++ e := by
  intro ps
  induction ps with
  | nil => intro bdt d; exact ⟨[], by simp [bdpartidas_aplicar_go]⟩
  | cons p rest ih =>
    intro bdt d
    obtain ⟨e0, he0⟩ := aplicar_uma_snd_mono bdt d p
    obtain ⟨e1, he1⟩ := ih (bdpartidas_aplicar_uma bdt d p).1 (bdpartidas_aplicar_uma bdt d p).2
    refine ⟨e0 ++ e1, ?_⟩
    show (bdpartidas_aplicar_go (bdpartidas_aplicar_uma bdt d p).1
        (bdpartidas_aplicar_uma bdt d p).2 rest).2 = _
    rw [he1, he0, List.append_assoc]

theorem aplicar_go_skip_middle (p : Partida) (ps₂ : List Partida) :
    ∀ (ps₁ : List Partida) (bdt : List Time) (dg : List Int),
      (bdtimes_buscar_por_id bdt p.time1 = none ∨
       bdtimes_buscar_por_id bdt p.time2 = none) →
      (bdpartidas_aplicar_go bdt dg (ps₁ ++ p :: ps₂)).1
          = (bdpartidas_aplicar_go bdt dg (ps₁ ++ ps₂)).1
      ∧ p.id ∈ (bdpartidas_aplicar_go bdt dg (ps₁ ++ p :: ps₂)).2 := by
  intro ps₁
  induction ps₁ with
  | nil =>
    intro bdt dg h
    simp only [List.nil_append]
    constructor
    · show (bdpartidas_aplicar_go (bdpartidas_aplicar_uma bdt dg p).1
          (bdpartidas_aplicar_uma bdt dg p).2 ps₂).1 = _
      rw [aplicar_uma_of_missing bdt dg p h]
      exact aplicar_go_fst_indep ps₂ bdt _ _
    · show p.id ∈ (bdpartidas_aplicar_go (bdpartidas_aplicar_uma bdt dg p).1
          (bdpartidas_aplicar_uma bdt dg p).2 ps₂).2
      rw [aplicar_uma_of_missing bdt dg p h]
      obtain ⟨e, he⟩ := aplicar_go_snd_mono ps₂ bdt (dg ++ [p.id])
      rw [he]
      simp
  | cons q ps₁ ih =>
    intro bdt dg h
    simp only [List.cons_append]
    have hmap := aplicar_uma_map_id bdt dg q
    have hpres : bdtimes_buscar_por_id (bdpartidas_aplicar_uma bdt dg q).1 p.time1 = none ∨
        bdtimes_buscar_por_id (bdpartidas_aplicar_uma bdt dg q).1 p.time2 = none := by
      rcases h with h | h
      · exact Or.inl ((buscar_por_id_congr _ _ hmap p.time1).trans h)
      · exact Or.inr ((buscar_por_id_congr _ _ hmap p.time2).trans h)
    exact ih (bdpartidas_aplicar_uma bdt dg q).1 (bdpartidas_aplicar_uma bdt dg q).2 hpres

theorem aplicar_result_getD (bdt : List Time) (p : Partida) (i1 i2 : Nat)
    (hne : i1 ≠ i2) (h1 : i1 < bdt.length) (h2 : i2 < bdt.length) :
    (aplicar_result bdt p i1 i2).getD i1 default
        = time_acumular_partida (bdt.getD i1 default) p.g1 p.g2
  ∧ (aplicar_result bdt p i1 i2).getD i2 default
        = time_acumular_partida (bdt.getD i2 default) p.g2 p.g1
  ∧ ∀ j, j ≠ i1 → j ≠ i2 →
        (aplicar_result bdt p i1 i2).getD j default = bdt.getD j default := by
  unfold aplicar_result
  refine ⟨?_, ?_, ?_⟩
  · rw [getD_set_ne _ i2 i1 _ _ (Ne.symm hne), getD_set_self _ i1 _ _ h1]
  · rw [getD_set_self _ i2 _ _ (by simpa using h2), getD_set_ne _ i1 i2 _ _ hne]
  · intro j hj1 hj2
    rw [getD_set_ne _ i2 j _ _ (fun he => hj2 he.symm),
      getD_set_ne _ i1 j _ _ (fun he => hj1 he.symm)]

theorem aplicar_result_getD_alias (bdt : List Time) (p : Partida) (i1 : Nat)
    (h1 : i1 < bdt.length) :
    (aplicar_result bdt p i1 i1).getD i1 default
        = time_acumular_partida
            (time_acumular_partida (bdt.getD i1 default) p.g1 p.g2) p.g2 p.g1
  ∧ ∀ j, j ≠ i1 → (aplicar_result bdt p i1 i1).getD j default = bdt.getD j default := by
  unfold aplicar_result
  constructor
  · rw [getD_set_self _ i1 _ _ (by simpa using h1), getD_set_self _ i1 _ _ h1]
  · intro j hj
    rw [getD_set_ne _ i1 j _ _ (fun he => hj he.symm),
      getD_set_ne _ i1 j _ _ (fun he => hj he.symm)]

/-- C5: during the fold of matches into team statistics, a match whose home
or away id does not resolve in the registry is skipped with a diagnostic
(its id is logged) and no team changes because of it, while the remaining
matches are still processed; a match with both ids resolved applies
`time_acumular_partida` exactly once per side, with the goal arguments
reversed for the away side, touching no other team and emitting no
diagnostic — at distinct positions each side's team is accumulated from its
loaded state, and for a self-referencing match both accumulations land on
the one aliased team in sequence, exactly as the C pointer updates do. -/
theorem bdpartidas_aplicar_spec (bdt : List Time) (dg : List Int) (p : Partida) :
    ((bdtimes_buscar_por_id bdt p.time1 = none ∨
      bdtimes_buscar_por_id bdt p.time2 = none) →
       bdpartidas_aplicar_uma bdt dg p = (bdt, dg ++ [p.id]))
  ∧ (∀ i1 i2, bdtimes_buscar_por_id bdt p.time1 = some i1 →
       bdtimes_buscar_por_id bdt p.time2 = some i2 → i1 ≠ i2 →
       (bdpartidas_aplicar_uma bdt dg p).2 = dg
       ∧ ((bdpartidas_aplicar_uma bdt dg p).1).getD i1 default
           = time_acumular_partida (bdt.getD i1 default) p.g1 p.g2
       ∧ ((bdpartidas_aplicar_uma bdt dg p).1).getD i2 default
           = time_acumular_partida (bdt.getD i2 default) p.g2 p.g1
       ∧ ∀ j, j ≠ i1 → j ≠ i2 →
           ((bdpartidas_aplicar_uma bdt dg p).1).getD j default = bdt.getD j default)
  ∧ (∀ i1 i2, bdtimes_buscar_por_id bdt p.time1 = some i1 →
       bdtimes_buscar_por_id bdt p.time2 = some i2 → i1 = i2 →
       (bdpartidas_aplicar_uma bdt dg p).2 = dg
       ∧ ((bdpartidas_aplicar_uma bdt dg p).1).getD i1 default
           = time_acumular_partida
               (time_acumular_partida (bdt.getD i1 default) p.g1 p.g2) p.g2 p.g1
       ∧ ∀ j, j ≠ i1 →
           ((bdpartidas_aplicar_uma bdt dg p).1).getD j default = bdt.getD j default)
  ∧ (∀ ps₁ ps₂ : List Partida,
       (bdtimes_buscar_por_id bdt p.time1 = none ∨
        bdtimes_buscar_por_id bdt p.time2 = none) →
       (bdpartidas_aplicar_em_bdtimes (ps₁ ++ p :: ps₂) bdt).1
           = (bdpartidas_aplicar_em_bdtimes (ps₁ ++ ps₂) bdt).1
       ∧ p.id ∈ (bdpartidas_aplicar_em_bdtimes (ps₁ ++ p :: ps₂) bdt).2) := by
  refine ⟨fun h => aplicar_uma_of_missing bdt dg p h, ?_, ?_, ?_⟩
  · intro i1 i2 h1 h2 hne
    rw [aplicar_uma_of_found bdt dg p i1 i2 h1 h2]
    have hl1 := buscar_por_id_lt_length bdt p.time1 i1 h1
    have hl2 := buscar_por_id_lt_length bdt p.time2 i2 h2
    obtain ⟨ha, hb, hc⟩ := aplicar_result_getD bdt p i1 i2 hne hl1 hl2
    exact ⟨rfl, ha, hb, hc⟩
  · intro i1 i2 h1 h2 heq
    subst heq
    rw [aplicar_uma_of_found bdt dg p i1 i1 h1 h2]
    have hl1 := buscar_por_id_lt_length bdt p.time1 i1 h1
    obtain ⟨ha, hb⟩ := aplicar_result_getD_alias bdt p i1 hl1
    exact ⟨rfl, ha, hb⟩
  · intro ps₁ ps₂ h
    exact aplicar_go_skip_middle p ps₂ ps₁ bdt [] h

/-- Team fixtures for the concrete instances below. -/
def timeA : Time := ⟨0, [65], 0, 0, 0, 0, 0⟩

/-- Second team fixture. -/
def timeB : Time := ⟨1, [66], 0, 0, 0, 0, 0⟩

/-- A match between the two loaded teams (2 x 1). -/
def partida_ok : Partida := ⟨0, 0, 1, 2, 1⟩

/-- A match referencing the absent team id 99. -/
def partida_ruim : Partida := ⟨7, 99, 0, 1, 2⟩

/-- A self-referencing match: team 0 against itself (2 x 2). -/
def partida_auto : Partida := ⟨9, 0, 0, 2, 2⟩

/-- C5 (witness): the theorem applied to a two-team registry, with a match
referencing absent id 99 (skipped, diagnostic 7 logged, registry untouched),
with a resolving match (both sides accumulated with reversed goals, other
positions untouched), and with a self-referencing match (both accumulations
landing on the one aliased team). -/
theorem bdpartidas_aplicar_spec_witness :
    bdpartidas_aplicar_uma [timeA, timeB] [] partida_ruim = ([timeA, timeB], [7])
  ∧ (bdpartidas_aplicar_uma [timeA, timeB] [] partida_ok).2 = []
  ∧ ((bdpartidas_aplicar_uma [timeA, timeB] [] partida_ok).1).getD 0 default
      = time_acumular_partida ([timeA, timeB].getD 0 default) partida_ok.g1 partida_ok.g2
  ∧ ((bdpartidas_aplicar_uma [timeA, timeB] [] partida_ok).1).getD 1 default
      = time_acumular_partida ([timeA, timeB].getD 1 default) partida_ok.g2 partida_ok.g1
  ∧ ((bdpartidas_aplicar_uma [timeA, timeB] [] partida_ok).1).getD 2 default
      = [timeA, timeB].getD 2 default
  ∧ (bdpartidas_aplicar_uma [timeA, timeB] [] partida_auto).2 = []
  ∧ ((bdpartidas_aplicar_uma [timeA, timeB] [] partida_auto).1).getD 0 default
      = time_acumular_partida
          (time_acumular_partida ([timeA, timeB].getD 0 default)
            partida_auto.g1 partida_auto.g2)
          partida_auto.g2 partida_auto.g1
  ∧ ((bdpartidas_aplicar_uma [timeA, timeB] [] partida_auto).1).getD 1 default
      = [timeA, timeB].getD 1 default
  ∧ (bdpartidas_aplicar_em_bdtimes [partida_ruim] [timeA, timeB]).1
      = (bdpartidas_aplicar_em_bdtimes [] [timeA, timeB]).1
  ∧ (7 : Int) ∈ (bdpartidas_aplicar_em_bdtimes [partida_ruim] [timeA, timeB]).2 := by
  have hskip := (bdpartidas_aplicar_spec [timeA, timeB] [] partida_ruim).1
    (Or.inl (by decide))
  have happly := (bdpartidas_aplicar_spec [timeA, timeB] [] partida_ok).2.1 0 1
    (by decide) (by decide) (by decide)
  have halias := (bdpartidas_aplicar_spec [timeA, timeB] [] partida_auto).2.2.1 0 0
    (by decide) (by decide) rfl
  have hfold := (bdpartidas_aplicar_spec [timeA, timeB] [] partida_ruim).2.2.2 [] []
    (Or.inl (by decide))
  exact ⟨hskip, happly.1, happly.2.1, happly.2.2.1,
    happly.2.2.2 2 (by decide) (by decide), halias.1, halias.2.1,
    halias.2.2 1 (by decide), hfold.1, hfold.2⟩

/-- Row-emission order shared by `bdtimes_imprimir_classificacao` and
`bdtimes_exportar_csv` in `bd_times.c`: both scan candidate ids 0 through
9999 in ascending order and, for each candidate, emit one data row for every
registry entry whose id equals it.  The emitted data rows are modelled by
the list of teams they are rendered from, in emission order. -/
def classificacao_rows (bd : List Time) : List Time :=
  ((List.range 10000).map (fun i : Nat => bd.filter (fun t => decide (t.id = (i : Int))))).flatten

theorem count_flatten_time (x : Time) : ∀ L : List (List Time),
    (L.flatten).count x = (L.map (fun l => l.count x)).sum := by
  intro L
  induction L with
  | nil => rfl
  | cons l L ih =>
    simp only [List.flatten_cons, List.count_append, List.map_cons, List.sum_cons, ih]

theorem count_filter_id (x : Time) (bd : List Time) (i : Int) :
    (bd.filter (fun t => decide (t.id = i))).count x
      = if x.id = i then bd.count x else 0 := by
  by_cases hp : x.id = i
  · rw [if_pos hp]
    exact List.count_filter (by simpa using hp)
  · rw [if_neg hp]
    rw [List.count_eq_zero]
    intro hx
    exact hp (by simpa using (List.mem_filter.mp hx).2)

theorem sum_range_ite_int (v : Int) (c : Nat) : ∀ N : Nat,
    (((List.range N).map (fun i : Nat => if v = (i : Int) then c else 0)).sum)
      = if 0 ≤ v ∧ v < (N : Int) then c else 0 := by
  intro N
  induction N with
  | zero => rw [if_neg (by omega)]; rfl
  | succ N ih =>
    rw [List.range_succ, List.map_append, List.sum_append, ih]
    simp only [List.map_cons, List.map_nil, List.sum_cons, List.sum_nil]
    by_cases hv : v = (N : Int)
    · rw [if_neg (by omega), if_pos hv, if_pos (by push_cast; omega)]
      omega
    · by_cases hr : 0 ≤ v ∧ v < (N : Int)
      · rw [if_pos hr, if_neg hv, if_pos (by push_cast; omega)]
        omega
      · rw [if_neg hr, if_neg hv, if_neg (by push_cast; omega)]
        omega

theorem classificacao_rows_count (bd : List Time) (x : Time) :
    (classificacao_rows bd).count x
      = if 0 ≤ x.id ∧ x.id < (10000 : Int) then bd.count x else 0 := by
  unfold classificacao_rows
  rw [count_flatten_time, List.map_map]
  have hfun : ((fun l : List Time => l.count x)
        ∘ fun i : Nat => bd.filter (fun t => decide (t.id = (i : Int))))
      = fun i : Nat => if x.id = (i : Int) then bd.count x else 0 := by
    funext i
    exact count_filter_id x bd (i : Int)
  rw [hfun, sum_range_ite_int x.id (bd.count x) 10000]
  norm_num

theorem classificacao_rows_sorted (bd : List Time) :
    List.Pairwise (fun a b : Time => a.id ≤ b.id) (classificacao_rows bd) := by
  unfold classificacao_rows
  refine List.pairwise_flatten.mpr ⟨?_, ?_⟩
  · intro l hl
    obtain ⟨i, hi, rfl⟩ := List.mem_map.mp hl
    refine List.pairwise_of_forall_mem_list ?_
    intro a ha b hb
    have ha' : a.id = (i : Int) := by simpa using (List.mem_filter.mp ha).2
    have hb' : b.id = (i : Int) := by simpa using (List.mem_filter.mp hb).2
    omega
  · rw [List.pairwise_map]
    refine (List.pairwise_lt_range 10000).imp ?_
    intro i j hij
    intro x hx y hy
    have hx' : x.id = (i : Int) := by simpa using (List.mem_filter.mp hx).2
    have hy' : y.id = (j : Int) := by simpa using (List.mem_filter.mp hy).2
    omega

/-- C4 (counterexample): the claim promises one row for every loaded team
regardless of its id; but the emission scans candidate ids 0..9999 only, so
a loaded team with id 10000 produces no row at all. -/
theorem classificacao_rows_id_10000_cex :
    (⟨10000, [], 0, 0, 0, 0, 0⟩ : Time) ∈ [(⟨10000, [], 0, 0, 0, 0, 0⟩ : Time)]
  ∧ classificacao_rows [⟨10000, [], 0, 0, 0, 0, 0⟩] = [] := by
  constructor
  · exact List.mem_singleton.mpr rfl
  · unfold classificacao_rows
    rw [List.flatten_eq_nil_iff]
    intro l hl
    obtain ⟨i, hi, rfl⟩ := List.mem_map.mp hl
    rw [List.filter_eq_nil_iff]
    intro a ha
    have hi' : i < 10000 := List.mem_range.mp hi
    have ha' : a = (⟨10000, [], 0, 0, 0, 0, 0⟩ : Time) := List.mem_singleton.mp ha
    subst ha'
    simp only [decide_eq_true_eq]
    show ¬ ((10000 : Int) = (i : Int))
    omega

/-- C4 (amended): for every registry whose team ids all lie in the scanned
range 0..9999, the standings printer/exporter emits exactly one data row per
loaded team (the rows are a permutation of the registry) and the rows appear
in ascending order of team id; teams with ids outside that range are
omitted. -/
theorem classificacao_rows_spec (bd : List Time)
    (hids : ∀ t ∈ bd, 0 ≤ t.id ∧ t.id < (10000 : Int)) :
    (classificacao_rows bd).Perm bd
  ∧ List.Pairwise (fun a b : Time => a.id ≤ b.id) (classificacao_rows bd) := by
  refine ⟨?_, classificacao_rows_sorted bd⟩
  rw [List.perm_iff_count]
  intro x
  rw [classificacao_rows_count]
  by_cases hx : x ∈ bd
  · rw [if_pos (hids x hx)]
  · have h0 : bd.count x = 0 := List.count_eq_zero.mpr hx
    rw [h0]
    split <;> rfl

/-- Team fixture with id 3. -/
def timeC : Time := ⟨3, [67], 0, 0, 0, 0, 0⟩

/-- Team fixture with id 1. -/
def timeD : Time := ⟨1, [68], 0, 0, 0, 0, 0⟩

/-- C4 (witness): the amended theorem applied to a registry loaded out of id
order: the emitted rows are a permutation of the registry, sorted by id. -/
theorem classificacao_rows_spec_witness :
    (classificacao_rows [timeC, timeD]).Perm [timeC, timeD]
  ∧ List.Pairwise (fun a b : Time => a.id ≤ b.id) (classificacao_rows [timeC, timeD]) :=
  classificacao_rows_spec [timeC, timeD] (by decide)

/-- C3 (counterexample): the claim requires failure on any line whose field
count differs from five; but the source loop stops consuming after the fifth
token and then checks only `i == 5`, so a six-field line such as
"1,2,3,4,5,6" parses successfully, its sixth field ignored. -/
theorem parse_partida_linha_six_fields_cex :
    (strtok_commas (str_trim (chomp [49, 44, 50, 44, 51, 44, 52, 44, 53, 44, 54]))).length = 6
  ∧ (parse_partida_linha [49, 44, 50, 44, 51, 44, 52, 44, 53, 44, 54]).isSome = true := by
  decide

/-- C3 (amended): `parse_partida_linha` succeeds exactly when the chomped,
trimmed line yields at least five nonempty comma-delimited fields and each of
the first five parses as an integer via `safe_atoi`; for fewer than five
fields it fails, while fields beyond the fifth are ignored. -/
theorem parse_partida_linha_of_loop_none (linha : List Nat)
    (h : parse_partida_loop (strtok_commas (str_trim (chomp linha))) 0 = none) :
    parse_partida_linha linha = none := by
  unfold parse_partida_linha
  rw [h]

theorem parse_partida_linha_of_loop_some (linha : List Nat) (j : Nat) (vs : List Int)
    (h : parse_partida_loop (strtok_commas (str_trim (chomp linha))) 0 = some (j, vs)) :
    parse_partida_linha linha =
      (if j ≠ 5 then none
       else some ⟨vs.getD 0 0, vs.getD 1 0, vs.getD 2 0, vs.getD 3 0, vs.getD 4 0⟩) := by
  unfold parse_partida_linha
  rw [h]

theorem parse_partida_linha_iff (linha : List Nat) :
    (parse_partida_linha linha).isSome = true ↔
      (5 ≤ (strtok_commas (str_trim (chomp linha))).length ∧
       ∀ tok ∈ (strtok_commas (str_trim (chomp linha))).take 5,
         (safe_atoi (chomp (str_trim tok)) 0).1 ≠ 0) := by
  cases hloop : parse_partida_loop (strtok_commas (str_trim (chomp linha))) 0 with
  | none =>
    rw [parse_partida_linha_of_loop_none linha hloop]
    simp only [Option.isSome_none, Bool.false_eq_true, false_iff]
    intro hcontra
    have h1 := (parse_partida_loop_isSome (strtok_commas (str_trim (chomp linha))) 0).mpr
      (by simpa using hcontra.2)
    rw [hloop] at h1
    simp at h1
  | some jvs =>
    rcases jvs with ⟨j, vs⟩
    rw [parse_partida_linha_of_loop_some linha j vs hloop]
    have hj := parse_partida_loop_count _ 0 j vs hloop
    have hsome := (parse_partida_loop_isSome (strtok_commas (str_trim (chomp linha))) 0)
    rw [hloop] at hsome
    simp only [Option.isSome_some, true_iff] at hsome
    by_cases hj5 : j = 5
    · rw [if_neg (not_not_intro hj5)]
      simp only [Option.isSome_some, true_iff]
      refine ⟨by omega, by simpa using hsome⟩
    · rw [if_pos hj5]
      simp only [Option.isSome_none, Bool.false_eq_true, false_iff]
      intro hcontra
      have := hcontra.1
      omega
example : utf8_len [226, 128, 166] = 1 := by decide
example : utf8_wf [83, 195, 163, 111] = true := by decide
example : utf8_wf [195] = false := by decide
example : print_utf8_padded [70, 108, 97] 5 = [70, 108, 97, 32, 32] := by decide
example : print_utf8_padded [97, 98, 99, 100] 3 = [97, 98, 226, 128, 166] := by decide
example : print_utf8_padded [97] 0 = [226, 128, 166] := by decide

end TP1
